import Mathlib

/-!
Verification of cfgt's format-detection and diagnostic-reporting subsystem.

The development shallowly embeds the `convert` command of cfgt (main.go and
the parse-mode source file): the `run` method's ordered trial parsing with
fallthrough across the "json", "json5" and "hcl" cases, the
`highlightPosition` byte-offset → line/column locator, and the JSON output
stage.  The external parser libraries (encoding/json, flynn/json5,
hashicorp/hcl) are reached only through the repository's `ParseJSON`,
`ParseJSON5` and `ParseHCL` wrappers; `run`'s control flow is embedded
parameterically over the three parse functions, and the two JSON decoders
are additionally given concrete models (`ParseJSON`, `ParseJSON5` below)
reflecting Go's stream-decoder semantics: decode a single value by maximal
munch and ignore whatever input remains.
-/

namespace Cfgt

/-- The untyped value tree produced by every grammar, mirroring Go's
`interface{}` decoding target (the universal JSON data model).  Numeric
lexemes are kept verbatim rather than converted to float64; object fields
are kept as an association list in source order (Go's map plus re-sorting
on encode is abstracted). -/
inductive Value where
  | null : Value
  | bool (b : Bool) : Value
  | num (lex : String) : Value
  | str (s : String) : Value
  | arr (elems : List Value) : Value
  | obj (fields : List (String × Value)) : Value

/-- A parse failure as surfaced by one of the `Parse*` wrappers:
the underlying error's message (`errors.Cause(err).Error()`), together
with the byte offset when the cause is a `json.SyntaxError` /
`json5.SyntaxError` (`none` models causes that carry no offset, e.g.
HCL failures or `io.ErrUnexpectedEOF`). -/
structure ParseErr where
  msg : String
  offset : Option Nat
deriving Repr, DecidableEq

/-- A grammar's parse function: input bytes to a `Value` or an error.
Models the `func(...) (interface{}, error)` shape of `ParseJSON`,
`ParseJSON5` and `ParseHCL`. -/
abbrev ParseFn := List Char → Except ParseErr Value

/-! ## The diagnostic locator: `highlightPosition` -/

/-- Result of `highlightPosition`: the returned `(line, col, highlight)`
triple. -/
structure Highlight where
  line : Nat
  col : Nat
  text : String
deriving Repr, DecidableEq

/-- The byte-scanning loop of `highlightPosition`: for up to `pos` bytes
(stopping early at end of input, as `ReadByte` erroring breaks the loop),
a newline bumps `line`, resets `col` to 1 and rolls `thisLine` into
`lastLine`; any other byte bumps `col` and appends to `thisLine`.
State is `(line, col, lastLine, thisLine)` with the source's zero values
`(1, 0, "", "")` at entry. -/
def hpLoop : List Char → Nat → Nat → Nat → List Char → List Char →
    Nat × Nat × List Char × List Char
  | _, 0, line, col, lastL, thisL => (line, col, lastL, thisL)
  | [], _ + 1, line, col, lastL, thisL => (line, col, lastL, thisL)
  | b :: rest, n + 1, line, col, lastL, thisL =>
    if b = '\n' then hpLoop rest n (line + 1) 1 thisL []
    else hpLoop rest n line (col + 1) lastL (thisL ++ [b])

/-- Model of `fmt.Sprintf("%5d", n)`: decimal rendering right-aligned in a
five-character field. -/
def pad5 (n : Nat) : String :=
  String.mk (List.replicate (5 - (toString n).length) ' ') ++ toString n

/-- Model of `strings.Repeat(" ", n)`. -/
def spaces (n : Nat) : String :=
  String.mk (List.replicate n ' ')

/-- Embedding of `highlightPosition(f, pos)`: scan the first `pos` bytes of
the input, then render the previous line (only when `line > 1`), the
scanned portion of the error line, each behind a `%5d: ` prefix, and a
caret line of `col+5` spaces followed by `^`. -/
def highlightPosition (input : List Char) (pos : Nat) : Highlight :=
  let r := hpLoop input pos 1 0 [] []
  let line := r.1
  let col := r.2.1
  let lastL := r.2.2.1
  let thisL := r.2.2.2
  let pre := if 1 < line then pad5 (line - 1) ++ ": " ++ String.mk lastL ++ "\n" else ""
  ⟨line, col,
    pre ++ pad5 line ++ ": " ++ String.mk thisL ++ "\n" ++ spaces (col + 5) ++ "^" ++ "\n"⟩

/-! ### Specification-side views of the scanned input -/

/-- Number of newline bytes in `l`. -/
def countNL (l : List Char) : Nat := l.count '\n'

/-- The newline-separated segments of `l` (always nonempty; a trailing
newline yields a final empty segment, matching how the scanning loop
leaves an empty `thisLine` after a newline). -/
def linesOf : List Char → List (List Char)
  | [] => [[]]
  | c :: r =>
    if c = '\n' then [] :: linesOf r
    else
      match linesOf r with
      | [] => [[c]]
      | l :: ls => (c :: l) :: ls

/-- One step of the scanning loop, as a state transformer. -/
def stepLC (st : Nat × Nat × List Char × List Char) (b : Char) :
    Nat × Nat × List Char × List Char :=
  if b = '\n' then (st.1 + 1, 1, st.2.2.2, [])
  else (st.1, st.2.1 + 1, st.2.2.1, st.2.2.2 ++ [b])


/-! ## The format resolver: the `run` method's input-format switch -/

/-- Model of `fmt.Sprintf("%q", s)` for the plain names that occur here (no
escaping needed for the file and format names the model quotes). -/
def qq (s : String) : String := "\"" ++ s ++ "\""

/-- The composite message built in the `*json.SyntaxError` /
`*json5.SyntaxError` branches:
`errors.Wrapf(err, "unable to parse %q as %q: %s\nSyntax error at line %d,
column %d (offset %d):\n%s", ...)` — `pkg/errors` appends `": "` and the
wrapped error's own message (`label ++ ": " ++ cause`). -/
def offsetWrapMsg (inFile fmtStr label : String) (input : List Char)
    (causeMsg : String) (off : Nat) : String :=
  let h := highlightPosition input off
  "unable to parse " ++ qq inFile ++ " as " ++ qq fmtStr ++ ": " ++ causeMsg ++
    "\nSyntax error at line " ++ toString h.line ++ ", column " ++ toString h.col ++
    " (offset " ++ toString off ++ "):\n" ++ h.text ++ ": " ++ label ++ ": " ++ causeMsg

/-- The message built in the `default` branches of the per-grammar error
switches: `errors.Wrapf(err, "unable to parse config file as %q", ...)`,
again with the wrapped error's message appended. -/
def plainWrapMsg (fmtStr label : String) (causeMsg : String) : String :=
  "unable to parse config file as " ++ qq fmtStr ++ ": " ++ label ++ ": " ++ causeMsg

/-- The wrapped attempt error produced by the "json"/"json5" cases: the
offset-carrying diagnostic form when the cause is the grammar's
`SyntaxError`, the plain wrap otherwise. -/
def attemptMsg (inFile fmtStr label : String) (input : List Char) (e : ParseErr) : String :=
  match e.offset with
  | some off => offsetWrapMsg inFile fmtStr label input e.msg off
  | none => plainWrapMsg fmtStr label e.msg

/-- The error value the `run` method returns. -/
inductive RunErr where
  /-- A single grammar's wrapped failure, returned as-is when a specific
  format was requested. -/
  | attempt (msg : String) : RunErr
  /-- The `default` case's `fmt.Errorf("Unsupported input type: %q ...")`,
  carrying the accumulated per-grammar error list (empty when the
  requested format named no candidate grammar). -/
  | unsupported (fmtStr : String) (errs : List String) : RunErr
  /-- `fmt.Errorf("Unsupported output type: %q")`. -/
  | unsupportedOutput (fmtStr : String) : RunErr

/-- Observable outcome of the input-format switch: the decoded value (when
some grammar succeeded), the returned error (when `run` returns early or
exhausts the candidates), the accumulated `errList`, and — as a ghost
observation for the specification — which grammar parsers were invoked,
in order. -/
structure RunResult where
  value : Option Value
  err : Option RunErr
  errList : List String
  invoked : List String

/-- The `case "hcl"` stage: `ParseHCL` then the error switch whose only
branch is `default` (HCL failures never get a diagnostic block). -/
def hclStage (hp : ParseFn) (fmtStr : String) (input : List Char)
    (tryAllFormats : Bool) (errList invoked : List String) : RunResult :=
  match hp input with
  | .ok v => ⟨some v, none, errList, invoked ++ ["hcl"]⟩
  | .error e =>
    let m := plainWrapMsg fmtStr "unable to decode HCL" e.msg
    if tryAllFormats then
      ⟨none, some (.unsupported fmtStr (errList ++ [m])), errList ++ [m],
        invoked ++ ["hcl"]⟩
    else ⟨none, some (.attempt m), errList, invoked ++ ["hcl"]⟩

/-- The `case "json5"` stage: `ParseJSON5`, the error switch on
`*json5.SyntaxError`, then return or fall through to "hcl". -/
def json5Stage (j5p hp : ParseFn) (inFile fmtStr : String) (input : List Char)
    (tryAllFormats : Bool) (errList invoked : List String) : RunResult :=
  match j5p input with
  | .ok v => ⟨some v, none, errList, invoked ++ ["json5"]⟩
  | .error e =>
    let m := attemptMsg inFile fmtStr "unable to decode JSON5" input e
    if tryAllFormats then
      hclStage hp fmtStr input true (errList ++ [m]) (invoked ++ ["json5"])
    else ⟨none, some (.attempt m), errList, invoked ++ ["json5"]⟩

/-- The `case "json"` stage: `ParseJSON`, the error switch on
`*json.SyntaxError`, then return or fall through to "json5". -/
def jsonStage (jp j5p hp : ParseFn) (inFile fmtStr : String) (input : List Char)
    (tryAllFormats : Bool) (errList invoked : List String) : RunResult :=
  match jp input with
  | .ok v => ⟨some v, none, errList, invoked ++ ["json"]⟩
  | .error e =>
    let m := attemptMsg inFile fmtStr "unable to decode JSON" input e
    if tryAllFormats then
      json5Stage j5p hp inFile fmtStr input true (errList ++ [m]) (invoked ++ ["json"])
    else ⟨none, some (.attempt m), errList, invoked ++ ["json"]⟩

/-- The input-format switch of `(*ParseMode).run`, parameterized over the
three grammar parse functions.  `"*"` enters the "json" case with
`tryAllFormats` set (the `fallthrough` chain), a specific format enters
its own case with `tryAllFormats` unset, and any other name reaches the
`default` case with an empty error list. -/
def runModel (jp j5p hp : ParseFn) (inFile fmtStr : String) (input : List Char) :
    RunResult :=
  if fmtStr = "*" then jsonStage jp j5p hp inFile fmtStr input true [] []
  else if fmtStr = "json" then jsonStage jp j5p hp inFile fmtStr input false [] []
  else if fmtStr = "json5" then json5Stage j5p hp inFile fmtStr input false [] []
  else if fmtStr = "hcl" then hclStage hp fmtStr input false [] []
  else ⟨none, some (.unsupported fmtStr []), [], []⟩

/-- The parse function belonging to an explicitly requested candidate
grammar name. -/
def grammarParse (jp j5p hp : ParseFn) (fmtStr : String) : ParseFn :=
  if fmtStr = "json" then jp else if fmtStr = "json5" then j5p else hp

/-- The wrapped message an explicitly requested grammar's failure gets
(the "json"/"json5" cases inspect the cause for a SyntaxError; the "hcl"
case always takes the default wrap). -/
def wrapMsgFor (inFile fmtStr : String) (input : List Char) (e : ParseErr) : String :=
  if fmtStr = "json" then attemptMsg inFile fmtStr "unable to decode JSON" input e
  else if fmtStr = "json5" then attemptMsg inFile fmtStr "unable to decode JSON5" input e
  else plainWrapMsg fmtStr "unable to decode HCL" e.msg

/-! ## The output stage: `json.Encoder` with or without `SetIndent` -/

/-- Minimal string escaping for the encoder (quote, backslash and the
common control characters; Go's full escape table is abstracted to the
characters exercised here). -/
def escChars : List Char → List Char
  | [] => []
  | c :: r =>
    (if c = '"' then ['\\', '"']
     else if c = '\\' then ['\\', '\\']
     else if c = '\n' then ['\\', 'n']
     else if c = '\t' then ['\\', 't']
     else if c = '\r' then ['\\', 'r']
     else [c]) ++ escChars r

/-- A JSON string literal. -/
def quoteStr (s : String) : String :=
  "\"" ++ String.mk (escChars s.toList) ++ "\""

/-- Indentation produced by `enc.SetIndent("", "    ")` at nesting
depth `lvl`. -/
def indentStr (lvl : Nat) : String := spaces (4 * lvl)

/-- A `strings.Join`-style separator interleaving. -/
def joinSep (sep : String) : List String → String
  | [] => ""
  | [x] => x
  | x :: y :: ys => x ++ sep ++ joinSep sep (y :: ys)

/-- Canonical JSON serialization of a `Value`, compact (`ind = false`) or
indented with four spaces (`ind = true`), following Go's
`json.Encoder`/`MarshalIndent` layout.  The `fuel` argument only bounds
nesting depth so the recursion is structural; it is always instantiated
large enough (any value's `sizeOf` exceeds its depth). -/
def encV : Nat → Bool → Nat → Value → String
  | 0, _, _, _ => ""
  | _ + 1, _, _, .null => "null"
  | _ + 1, _, _, .bool b => if b then "true" else "false"
  | _ + 1, _, _, .num lex => lex
  | _ + 1, _, _, .str s => quoteStr s
  | _ + 1, _, _, .arr [] => "[]"
  | fuel + 1, ind, lvl, .arr (x :: xs) =>
    let items := (x :: xs).map (encV fuel ind (lvl + 1))
    if ind then
      "[\n" ++ indentStr (lvl + 1) ++ joinSep (",\n" ++ indentStr (lvl + 1)) items ++
        "\n" ++ indentStr lvl ++ "]"
    else "[" ++ joinSep "," items ++ "]"
  | _ + 1, _, _, .obj [] => "\x7b\x7d"
  | fuel + 1, ind, lvl, .obj (f :: fs) =>
    let items := (f :: fs).map fun g =>
      quoteStr g.1 ++ (if ind then ": " else ":") ++ encV fuel ind (lvl + 1) g.2
    if ind then
      "\x7b\n" ++ indentStr (lvl + 1) ++ joinSep (",\n" ++ indentStr (lvl + 1)) items ++
        "\n" ++ indentStr lvl ++ "\x7d"
    else "\x7b" ++ joinSep "," items ++ "\x7d"

mutual
/-- A computable size of a value, used only to pick sufficient encoder
fuel (strictly larger than the value's nesting depth). -/
def sizeV : Value → Nat
  | .null => 1
  | .bool _ => 1
  | .num _ => 1
  | .str _ => 1
  | .arr xs => 1 + sizeVL xs
  | .obj fs => 1 + sizeVF fs

/-- Size of a list of values. -/
def sizeVL : List Value → Nat
  | [] => 0
  | x :: xs => sizeV x + sizeVL xs

/-- Size of a list of fields. -/
def sizeVF : List (String × Value) → Nat
  | [] => 0
  | f :: fs => sizeV f.2 + sizeVF fs
end

/-- Encode a value as the output stage does. -/
def encodeJSON (ind : Bool) (v : Value) : String := encV (sizeV v) ind 0 v

/-- The output switch of `run`: for `"json"`, encode with
`json.NewEncoder`; the encoder indents only when the pretty-print flag is
set *and* the destination is standard output
(`m.PrettyPrint && m.OutFilename == "-"`); `Encode` always appends a
newline.  Any other output format is rejected. -/
def outputStage (outFormat : String) (prettyPrint : Bool) (outFilename : String)
    (v : Value) : Except RunErr String :=
  if outFormat = "json" then
    .ok (encodeJSON (prettyPrint && outFilename == "-") v ++ "\n")
  else .error (.unsupportedOutput outFormat)

/-- The whole of `run` after input buffering: the input-format switch, then
on success the output stage. -/
def runFull (jp j5p hp : ParseFn) (inFile fmtStr : String) (input : List Char)
    (outFormat : String) (prettyPrint : Bool) (outFilename : String) :
    Except RunErr String :=
  let r := runModel jp j5p hp inFile fmtStr input
  match r.err, r.value with
  | some e, _ => .error e
  | none, some v => outputStage outFormat prettyPrint outFilename v
  | none, none => .error (.unsupported fmtStr r.errList)

/-! ## Concrete models of the JSON and JSON5 stream decoders

`ParseJSON` and `ParseJSON5` call `json.NewDecoder(r).Decode(&raw)` /
`json5.NewDecoder(r).Decode(&raw)`: both read a *single* value from the
stream by maximal munch and never look at what follows it.  The grammar
below models strict JSON; the `rx` flag adds the JSON5 relaxations the
claims exercise (trailing commas in arrays and objects, single-quoted
strings).  Other JSON5 extensions of the flynn/json5 library (comments,
identifier keys, hex numbers, Infinity/NaN) and full escape/number
validation details are not modeled; parse errors carry fixed messages and
no offsets (the resolver theorems quantify over the error anyway). -/

/-- Whitespace accepted between JSON tokens. -/
def isWS (c : Char) : Bool := c = ' ' || c = '\t' || c = '\n' || c = '\r'

/-- The single-quote character (JSON5 string delimiter). -/
def squote : Char := Char.ofNat 39

/-- Map an escape code to the character it denotes (simplified table). -/
def escCode (c : Char) : Char :=
  if c = 'n' then '\n' else if c = 't' then '\t' else if c = 'r' then '\r' else c

/-- Consume the literal `lit` from the front of the input. -/
def dropLit : List Char → List Char → Option (List Char)
  | [], s => some s
  | _ :: _, [] => none
  | c :: cs, d :: ds => if c = d then dropLit cs ds else none

/-- Scan a string body up to the closing delimiter `q`, decoding escapes;
`acc` holds the decoded characters in reverse and `esc` records whether
the previous character was an unconsumed backslash. -/
def pStr (q : Char) : List Char → List Char → Bool →
    Except ParseErr (String × List Char)
  | [], _, _ => .error ⟨"unexpected end of string literal", none⟩
  | c :: r, acc, esc =>
    if esc then pStr q r (escCode c :: acc) false
    else if c = q then .ok (String.mk acc.reverse, r)
    else if c = '\\' then pStr q r acc true
    else pStr q r (c :: acc) false

/-- The integer part of a number: `0`, or a nonzero digit followed by
maximal munch of digits (Go's scanner accepts no digit after a leading
`0`; the value simply ends there). -/
def numInt : List Char → Option (List Char × List Char)
  | [] => none
  | c :: r =>
    if c = '0' then some ([c], r)
    else if c.isDigit then some (c :: r.takeWhile Char.isDigit, r.dropWhile Char.isDigit)
    else none

/-- The optional fraction part: a `.` commits to at least one digit. -/
def numFrac : List Char → Except ParseErr (List Char × List Char)
  | [] => .ok ([], [])
  | c :: r =>
    if c = '.' then
      match r.takeWhile Char.isDigit with
      | [] => .error ⟨"digit expected after decimal point", none⟩
      | _ :: _ => .ok ('.' :: r.takeWhile Char.isDigit, r.dropWhile Char.isDigit)
    else .ok ([], c :: r)

/-- Sign and digits after the `e`/`E` of an exponent. -/
def numExpTail (c : Char) : List Char → Except ParseErr (List Char × List Char)
  | [] => .error ⟨"digit expected in exponent", none⟩
  | s :: r2 =>
    if s = '+' || s = '-' then
      match r2.takeWhile Char.isDigit with
      | [] => .error ⟨"digit expected in exponent", none⟩
      | _ :: _ => .ok (c :: s :: r2.takeWhile Char.isDigit, r2.dropWhile Char.isDigit)
    else
      match (s :: r2).takeWhile Char.isDigit with
      | [] => .error ⟨"digit expected in exponent", none⟩
      | _ :: _ =>
        .ok (c :: (s :: r2).takeWhile Char.isDigit, (s :: r2).dropWhile Char.isDigit)

/-- The optional exponent part: an `e`/`E` commits to an optional sign and
at least one digit. -/
def numExp : List Char → Except ParseErr (List Char × List Char)
  | [] => .ok ([], [])
  | c :: r =>
    if c = 'e' || c = 'E' then numExpTail c r
    else .ok ([], c :: r)

/-- Scan a complete number token (maximal munch) starting at an optional
minus sign, returning its lexeme. -/
def pNum : List Char → Except ParseErr (String × List Char)
  | [] => .error ⟨"invalid number literal", none⟩
  | c :: r =>
    match numInt (if c = '-' then r else c :: r) with
    | none => .error ⟨"invalid number literal", none⟩
    | some (ip, r1) =>
      match numFrac r1 with
      | .error e => .error e
      | .ok (fp, r2) =>
        match numExp r2 with
        | .error e => .error e
        | .ok (ep, r3) =>
          .ok (String.mk ((if c = '-' then [c] else []) ++ ip ++ fp ++ ep), r3)

mutual
/-- One JSON (or, with `rx`, JSON5) value: skip whitespace, dispatch on
the first character.  `fuel` bounds recursion depth. -/
def pVal (rx : Bool) : Nat → List Char → Except ParseErr (Value × List Char)
  | 0, _ => .error ⟨"depth limit exceeded", none⟩
  | fuel + 1, s =>
    match s.dropWhile isWS with
    | [] => .error ⟨"unexpected end of input", none⟩
    | c :: r =>
      if c = '\x7b' then
        match r.dropWhile isWS with
        | d :: r2 =>
          if d = '\x7d' then .ok (Value.obj [], r2) else pMembers rx fuel r []
        | [] => pMembers rx fuel r []
      else if c = '[' then
        match r.dropWhile isWS with
        | d :: r2 =>
          if d = ']' then .ok (Value.arr [], r2) else pElems rx fuel r []
        | [] => pElems rx fuel r []
      else if c = '"' then
        match pStr '"' r [] false with
        | .ok (str, r2) => .ok (Value.str str, r2)
        | .error e => .error e
      else if rx && c = squote then
        match pStr squote r [] false with
        | .ok (str, r2) => .ok (Value.str str, r2)
        | .error e => .error e
      else if c = 't' then
        match dropLit ['r', 'u', 'e'] r with
        | some r2 => .ok (Value.bool true, r2)
        | none => .error ⟨"invalid literal", none⟩
      else if c = 'f' then
        match dropLit ['a', 'l', 's', 'e'] r with
        | some r2 => .ok (Value.bool false, r2)
        | none => .error ⟨"invalid literal", none⟩
      else if c = 'n' then
        match dropLit ['u', 'l', 'l'] r with
        | some r2 => .ok (Value.null, r2)
        | none => .error ⟨"invalid literal", none⟩
      else if c = '-' || c.isDigit then
        match pNum (c :: r) with
        | .ok (lex, r2) => .ok (Value.num lex, r2)
        | .error e => .error e
      else .error ⟨"invalid character looking for value", none⟩

/-- Array elements after `[` (first element not yet parsed); `acc` holds
parsed elements.  With `rx`, a comma directly followed by `]` closes the
array (trailing comma). -/
def pElems (rx : Bool) : Nat → List Char → List Value →
    Except ParseErr (Value × List Char)
  | 0, _, _ => .error ⟨"depth limit exceeded", none⟩
  | fuel + 1, s, acc =>
    match pVal rx fuel s with
    | .error e => .error e
    | .ok (v, r1) =>
      match r1.dropWhile isWS with
      | [] => .error ⟨"expected comma or end of array", none⟩
      | d :: r2 =>
        if d = ',' then
          if rx then
            match r2.dropWhile isWS with
            | e2 :: r3 =>
              if e2 = ']' then .ok (Value.arr (acc ++ [v]), r3)
              else pElems rx fuel r2 (acc ++ [v])
            | [] => pElems rx fuel r2 (acc ++ [v])
          else pElems rx fuel r2 (acc ++ [v])
        else if d = ']' then .ok (Value.arr (acc ++ [v]), r2)
        else .error ⟨"expected comma or end of array", none⟩

/-- Object members after `\x7b` (first member not yet parsed); `acc` holds
parsed fields.  With `rx`, single-quoted keys and trailing commas are
accepted. -/
def pMembers (rx : Bool) : Nat → List Char → List (String × Value) →
    Except ParseErr (Value × List Char)
  | 0, _, _ => .error ⟨"depth limit exceeded", none⟩
  | fuel + 1, s, acc =>
    match s.dropWhile isWS with
    | [] => .error ⟨"unexpected end of input", none⟩
    | c :: r =>
      match (if c = '"' then pStr '"' r [] false
             else if rx && c = squote then pStr squote r [] false
             else .error ⟨"expected object key", none⟩ :
               Except ParseErr (String × List Char)) with
      | .error e => .error e
      | .ok (k, r1) =>
        match r1.dropWhile isWS with
        | [] => .error ⟨"expected colon after object key", none⟩
        | d :: r2 =>
          if d = ':' then
            match pVal rx fuel r2 with
            | .error e => .error e
            | .ok (v, r3) =>
              match r3.dropWhile isWS with
              | [] => .error ⟨"expected comma or end of object", none⟩
              | d2 :: r4 =>
                if d2 = ',' then
                  if rx then
                    match r4.dropWhile isWS with
                    | e2 :: r5 =>
                      if e2 = '\x7d' then .ok (Value.obj (acc ++ [(k, v)]), r5)
                      else pMembers rx fuel r4 (acc ++ [(k, v)])
                    | [] => pMembers rx fuel r4 (acc ++ [(k, v)])
                  else pMembers rx fuel r4 (acc ++ [(k, v)])
                else if d2 = '\x7d' then .ok (Value.obj (acc ++ [(k, v)]), r4)
                else .error ⟨"expected comma or end of object", none⟩
          else .error ⟨"expected colon after object key", none⟩
end

/-- Fuel that always suffices for an input of length `n` (each nesting
level consumes at least one character, and at most two fuel units are
spent per consumed character). -/
def decodeFuel (s : List Char) : Nat := 2 * s.length + 2

/-- Decode one value from the front of the stream, returning the
unconsumed remainder (the decoder's buffer position after `Decode`). -/
def decodeOne (rx : Bool) (s : List Char) : Except ParseErr (Value × List Char) :=
  pVal rx (decodeFuel s) s

/-- Model of `ParseJSON`: decode a single strict-JSON value and ignore whatever
input remains (the wrapper never checks for trailing data). -/
def ParseJSON : ParseFn := fun s =>
  match decodeOne false s with
  | .ok (v, _) => .ok v
  | .error e => .error e

/-- Model of `ParseJSON5`: decode a single JSON5 value and ignore whatever input
remains. -/
def ParseJSON5 : ParseFn := fun s =>
  match decodeOne true s with
  | .ok (v, _) => .ok v
  | .error e => .error e

/-! ## Proof development -/

theorem linesOf_ne_nil (l : List Char) : linesOf l ≠ [] := by
  induction l with
  | nil => simp [linesOf]
  | cons c r ih =>
    simp only [linesOf]
    split
    · simp
    · cases h : linesOf r with
      | nil => simp
      | cons a as => simp

theorem linesOf_length (l : List Char) : (linesOf l).length = countNL l + 1 := by
  induction l with
  | nil => simp [linesOf, countNL]
  | cons c r ih =>
    simp only [linesOf, countNL] at *
    by_cases hc : c = '\n'
    · subst hc
      simp [List.count_cons, ih]
    · simp only [if_neg hc]
      cases h : linesOf r with
      | nil => exact absurd h (linesOf_ne_nil r)
      | cons a as =>
        rw [h] at ih
        simp only [List.length_cons] at ih ⊢
        rw [List.count_cons]
        simp [hc, ih]

/-- Applying `linesOf` to a newline-free list gives the single segment. -/
theorem linesOf_of_countNL_zero {l : List Char} (h : countNL l = 0) :
    linesOf l = [l] := by
  induction l with
  | nil => simp [linesOf]
  | cons c r ih =>
    simp only [countNL, List.count_cons] at h
    by_cases hc : c = '\n'
    · simp [hc] at h
    · simp only [linesOf, if_neg hc]
      have hr : countNL r = 0 := by
        simp only [countNL]
        omega
      rw [ih hr]

/-- The loop only ever processes the first `pos` bytes. -/
theorem hpLoop_eq_foldl (input : List Char) (pos : Nat) (line col : Nat)
    (lastL thisL : List Char) :
    hpLoop input pos line col lastL thisL =
      (input.take pos).foldl stepLC (line, col, lastL, thisL) := by
  induction input generalizing pos line col lastL thisL with
  | nil => cases pos <;> simp [hpLoop]
  | cons b rest ih =>
    cases pos with
    | zero => simp [hpLoop]
    | succ n =>
      simp only [hpLoop, List.take_succ_cons, List.foldl_cons]
      by_cases hb : b = '\n'
      · simp only [if_pos hb, stepLC, ih]
      · simp only [if_neg hb, stepLC, ih]

/-- The closed form of the scan of a list `P` from an arbitrary state:
`line` advances by the newline count, `col` becomes the length of the final
segment plus one (or counts on from `col` when no newline is seen),
`thisLine` is the final segment and `lastLine` the one before it. -/
theorem foldl_stepLC_spec (P : List Char) (line col : Nat) (lastL thisL : List Char) :
    P.foldl stepLC (line, col, lastL, thisL) =
      if countNL P = 0 then (line, col + P.length, lastL, thisL ++ P)
      else
        ( line + countNL P,
          ((linesOf P).getLastD []).length + 1,
          (if countNL P = 1 then thisL ++ (linesOf P).headD []
           else (linesOf P).getD (countNL P - 1) []),
          (linesOf P).getLastD [] ) := by
  induction P generalizing line col lastL thisL with
  | nil => simp [countNL]
  | cons c r ih =>
    by_cases hc : c = '\n'
    · subst hc
      have hcount : countNL ('\n' :: r) = countNL r + 1 := by
        simp [countNL, List.count_cons]
      have hstep : stepLC (line, col, lastL, thisL) '\n' = (line + 1, 1, thisL, []) := by
        simp [stepLC]
      have hlines : linesOf ('\n' :: r) = [] :: linesOf r := by
        simp [linesOf]
      rw [List.foldl_cons, hstep, ih, hcount, hlines]
      by_cases h0 : countNL r = 0
      · have hr : linesOf r = [r] := linesOf_of_countNL_zero h0
        simp [h0, hr, Nat.add_comm]
      · have hne : linesOf r ≠ [] := linesOf_ne_nil r
        have hgl : ([] :: linesOf r).getLastD ([] : List Char)
            = (linesOf r).getLastD [] := by
          cases h : linesOf r with
          | nil => exact absurd h hne
          | cons a as => simp [List.getLastD_cons]
        have harith : ¬(countNL r + 1 = 0) := by omega
        have harith2 : ¬(countNL r + 1 = 1) := by omega
        rw [if_neg h0, if_neg harith]
        refine Prod.ext (by omega) (Prod.ext (by rw [hgl]) (Prod.ext ?_ (by rw [hgl])))
        rw [if_neg harith2]
        by_cases h1 : countNL r = 1
        · cases h : linesOf r with
          | nil => exact absurd h hne
          | cons a as => simp [h1, h]
        · rw [if_neg h1]
          have hidx : countNL r + 1 - 1 = (countNL r - 1) + 1 := by omega
          rw [hidx, List.getD_cons_succ]
    · have hcount : countNL (c :: r) = countNL r := by
        simp [countNL, List.count_cons, hc]
      have hstep : stepLC (line, col, lastL, thisL) c
          = (line, col + 1, lastL, thisL ++ [c]) := by
        simp [stepLC, hc]
      rw [List.foldl_cons, hstep, ih, hcount]
      by_cases h0 : countNL r = 0
      · rw [if_pos h0, if_pos h0]
        refine Prod.ext rfl (Prod.ext (by simp; omega) (Prod.ext rfl (by simp)))
      · have hne : linesOf r ≠ [] := linesOf_ne_nil r
        cases h : linesOf r with
        | nil => exact absurd h hne
        | cons a as =>
          have hlines : linesOf (c :: r) = (c :: a) :: as := by
            simp only [linesOf, if_neg hc, h]
          rw [if_neg h0, if_neg h0, hlines]
          cases as with
          | nil =>
            exfalso
            have := linesOf_length r
            rw [h] at this
            simp at this
            omega
          | cons a2 as2 =>
            have hlen : countNL r = as2.length + 1 := by
              have := linesOf_length r
              rw [h] at this
              simp at this
              omega
            have hgl : ((c :: a) :: a2 :: as2).getLastD ([] : List Char)
                = (a :: a2 :: as2).getLastD [] := by
              simp [List.getLastD_cons]
            refine Prod.ext rfl (Prod.ext (by rw [hgl]) (Prod.ext ?_ (by rw [hgl])))
            by_cases h1 : countNL r = 1
            · have has2 : as2 = [] := by
                rw [h1] at hlen
                exact List.length_eq_zero.mp (by omega)
              subst has2
              simp [h1, List.append_assoc]
            · rw [if_neg h1, if_neg h1]
              have h2 : 2 ≤ countNL r := by omega
              have hidx : countNL r - 1 = (countNL r - 2) + 1 := by omega
              rw [hidx, List.getD_cons_succ, List.getD_cons_succ]

/-- Closed form of the scanning loop from the source's initial state
`(1, 0, "", "")`. -/
theorem hpLoop_closed (input : List Char) (pos : Nat) :
    hpLoop input pos 1 0 [] [] =
      (if countNL (input.take pos) = 0 then
        (1, (input.take pos).length, [], input.take pos)
      else
        (1 + countNL (input.take pos),
         ((linesOf (input.take pos)).getLastD []).length + 1,
         (if countNL (input.take pos) = 1 then (linesOf (input.take pos)).headD []
          else (linesOf (input.take pos)).getD (countNL (input.take pos) - 1) []),
         (linesOf (input.take pos)).getLastD [])) := by
  rw [hpLoop_eq_foldl, foldl_stepLC_spec]
  by_cases h0 : countNL (input.take pos) = 0
  · simp [h0]
  · simp only [if_neg h0]
    rw [Nat.add_comm 1 (countNL (input.take pos))]
    simp

/-! ## The decoders never look past the value they read

The extension property: whenever a scanner succeeds leaving a *nonempty*
remainder (so its last decision was made on a real character, not on end
of input), appending further bytes to the input leaves its result
untouched except for the appended remainder. -/

theorem dropWhile_append_cons {p : Char → Bool} {l t r : List Char} {c : Char}
    (h : l.dropWhile p = c :: r) : (l ++ t).dropWhile p = c :: (r ++ t) := by
  induction l with
  | nil => simp [List.dropWhile] at h
  | cons a l ih =>
    by_cases hp : p a
    · rw [List.dropWhile_cons_of_pos hp] at h
      rw [List.cons_append, List.dropWhile_cons_of_pos hp]
      exact ih h
    · rw [List.dropWhile_cons_of_neg hp] at h
      obtain ⟨rfl, rfl⟩ := List.cons.inj h
      rw [List.cons_append, List.dropWhile_cons_of_neg hp]

theorem takeWhile_append_of_drop {p : Char → Bool} {l t r : List Char} {c : Char}
    (h : l.dropWhile p = c :: r) : (l ++ t).takeWhile p = l.takeWhile p := by
  induction l with
  | nil => simp [List.dropWhile] at h
  | cons a l ih =>
    by_cases hp : p a
    · rw [List.dropWhile_cons_of_pos hp] at h
      rw [List.cons_append, List.takeWhile_cons_of_pos hp, List.takeWhile_cons_of_pos hp,
        ih h]
    · rw [List.cons_append, List.takeWhile_cons_of_neg hp, List.takeWhile_cons_of_neg hp]

theorem pStr_ext {q : Char} {s acc t rem : List Char} {esc : Bool} {v : String}
    {c : Char} (h : pStr q s acc esc = .ok (v, c :: rem)) :
    pStr q (s ++ t) acc esc = .ok (v, c :: (rem ++ t)) := by
  induction s generalizing acc esc with
  | nil => simp [pStr] at h
  | cons a s ih =>
    rw [List.cons_append]
    by_cases hesc : esc
    · rw [pStr, if_pos hesc] at h ⊢
      exact ih h
    · by_cases hq : a = q
      · rw [pStr, if_neg hesc, if_pos hq] at h ⊢
        simp only [Except.ok.injEq, Prod.mk.injEq] at h ⊢
        obtain ⟨h1, h2⟩ := h
        subst h2
        simp [h1]
      · by_cases hb : a = '\\'
        · rw [pStr, if_neg hesc, if_neg hq, if_pos hb] at h ⊢
          exact ih h
        · rw [pStr, if_neg hesc, if_neg hq, if_neg hb] at h ⊢
          exact ih h

theorem dropLit_ext {lit s t rem : List Char} {c : Char}
    (h : dropLit lit s = some (c :: rem)) :
    dropLit lit (s ++ t) = some (c :: (rem ++ t)) := by
  induction lit generalizing s with
  | nil =>
    simp only [dropLit, Option.some.injEq] at h
    subst h
    simp [dropLit]
  | cons a lit ih =>
    cases s with
    | nil => simp [dropLit] at h
    | cons d s2 =>
      rw [dropLit] at h
      by_cases had : a = d
      · rw [if_pos had] at h
        rw [List.cons_append, dropLit, if_pos had]
        exact ih h
      · rw [if_neg had] at h
        exact absurd h (by simp)

theorem numInt_ext {s t r1 ip : List Char} {c : Char}
    (h : numInt s = some (ip, c :: r1)) :
    numInt (s ++ t) = some (ip, c :: (r1 ++ t)) := by
  cases s with
  | nil => simp [numInt] at h
  | cons a s2 =>
    rw [numInt] at h
    rw [List.cons_append, numInt]
    by_cases h0 : a = '0'
    · rw [if_pos h0] at h ⊢
      obtain ⟨h1, h2⟩ := Prod.mk.injEq .. ▸ Option.some.inj h
      cases h2
      simp [h1]
    · rw [if_neg h0] at h ⊢
      by_cases hd : a.isDigit
      · rw [if_pos hd] at h ⊢
        obtain ⟨h1, h2⟩ := Prod.mk.injEq .. ▸ Option.some.inj h
        rw [takeWhile_append_of_drop h2, dropWhile_append_cons h2, h1]
      · rw [if_neg hd] at h
        exact absurd h (by simp)

theorem numFrac_ext {s t r1 fp : List Char} {c : Char}
    (h : numFrac s = .ok (fp, c :: r1)) :
    numFrac (s ++ t) = .ok (fp, c :: (r1 ++ t)) := by
  cases s with
  | nil =>
    simp only [numFrac, Except.ok.injEq, Prod.mk.injEq] at h
    exact absurd h.2 (by simp)
  | cons a s2 =>
    simp only [numFrac] at h
    rw [List.cons_append]
    simp only [numFrac]
    by_cases hdot : a = '.'
    · rw [if_pos hdot] at h ⊢
      cases htw : s2.takeWhile Char.isDigit with
      | nil => simp only [htw] at h; simp at h
      | cons d ds =>
        simp only [htw, Except.ok.injEq, Prod.mk.injEq] at h
        obtain ⟨h1, h2⟩ := h
        simp only [takeWhile_append_of_drop h2, dropWhile_append_cons h2, htw, h1]
    · rw [if_neg hdot] at h ⊢
      simp only [Except.ok.injEq, Prod.mk.injEq] at h
      obtain ⟨h1, h2⟩ := h
      obtain ⟨rfl, rfl⟩ := List.cons.inj h2
      simp [h1]

theorem numExp_ext {s t r1 ep : List Char} {c : Char}
    (h : numExp s = .ok (ep, c :: r1)) :
    numExp (s ++ t) = .ok (ep, c :: (r1 ++ t)) := by
  cases s with
  | nil =>
    simp only [numExp, Except.ok.injEq, Prod.mk.injEq] at h
    exact absurd h.2 (by simp)
  | cons a s2 =>
    simp only [numExp] at h
    rw [List.cons_append]
    simp only [numExp]
    by_cases he : a = 'e' || a = 'E'
    · rw [if_pos he] at h ⊢
      cases s2 with
      | nil => simp [numExpTail] at h
      | cons b s3 =>
        simp only [numExpTail] at h
        rw [List.cons_append]
        simp only [numExpTail]
        by_cases hsign : b = '+' || b = '-'
        · rw [if_pos hsign] at h ⊢
          cases htw : s3.takeWhile Char.isDigit with
          | nil => simp only [htw] at h; simp at h
          | cons d ds =>
            simp only [htw, Except.ok.injEq, Prod.mk.injEq] at h
            obtain ⟨h1, h2⟩ := h
            simp only [takeWhile_append_of_drop h2, dropWhile_append_cons h2, htw, h1]
        · rw [if_neg hsign] at h ⊢
          cases htw : (b :: s3).takeWhile Char.isDigit with
          | nil => simp only [htw] at h; simp at h
          | cons d ds =>
            simp only [htw, Except.ok.injEq, Prod.mk.injEq] at h
            obtain ⟨h1, h2⟩ := h
            simp only [← List.cons_append, takeWhile_append_of_drop h2,
              dropWhile_append_cons h2, htw, h1]
    · rw [if_neg he] at h ⊢
      simp only [Except.ok.injEq, Prod.mk.injEq] at h
      obtain ⟨h1, h2⟩ := h
      obtain ⟨rfl, rfl⟩ := List.cons.inj h2
      simp [h1]

theorem pNum_ext {s t rem : List Char} {lex : String} {c : Char}
    (h : pNum s = .ok (lex, c :: rem)) :
    pNum (s ++ t) = .ok (lex, c :: (rem ++ t)) := by
  cases s with
  | nil => simp [pNum] at h
  | cons a s2 =>
    simp only [pNum] at h
    rw [List.cons_append]
    simp only [pNum]
    have hbody : (if a = '-' then s2 ++ t else a :: (s2 ++ t))
        = (if a = '-' then s2 else a :: s2) ++ t := by
      by_cases hm : a = '-' <;> simp [hm]
    rw [hbody]
    cases hint : numInt (if a = '-' then s2 else a :: s2) with
    | none => simp only [hint] at h; simp at h
    | some p =>
      obtain ⟨ip, r1⟩ := p
      simp only [hint] at h
      cases r1 with
      | nil => simp [numFrac, numExp] at h
      | cons b1 r1x =>
        simp only [numInt_ext hint]
        cases hfrac : numFrac (b1 :: r1x) with
        | error e => simp only [hfrac] at h; simp at h
        | ok p2 =>
          obtain ⟨fp, r2⟩ := p2
          simp only [hfrac] at h
          cases r2 with
          | nil => simp [numExp] at h
          | cons b2 r2x =>
            simp only [← List.cons_append, numFrac_ext hfrac]
            cases hexp : numExp (b2 :: r2x) with
            | error e => simp only [hexp] at h; simp at h
            | ok p3 =>
              obtain ⟨ep, r3⟩ := p3
              simp only [hexp, Except.ok.injEq, Prod.mk.injEq] at h
              obtain ⟨h1, h2⟩ := h
              subst h2
              simp only [← List.cons_append, numExp_ext hexp]
              simp [← h1, List.append_assoc]

theorem pVal_ws_nil {rx : Bool} {fuel : Nat} {s : List Char}
    (h : s.dropWhile isWS = []) {r : Value × List Char} : pVal rx fuel s ≠ .ok r := by
  cases fuel with
  | zero => simp [pVal]
  | succ fuel => simp [pVal, h]

theorem pElems_ws_nil {rx : Bool} {fuel : Nat} {s : List Char} {acc : List Value}
    (h : s.dropWhile isWS = []) {r : Value × List Char} :
    pElems rx fuel s acc ≠ .ok r := by
  cases fuel with
  | zero => simp [pElems]
  | succ fuel =>
    simp only [pElems]
    cases hv : pVal rx fuel s with
    | error e => simp
    | ok p => exact absurd hv (pVal_ws_nil h)

theorem pMembers_ws_nil {rx : Bool} {fuel : Nat} {s : List Char}
    {acc : List (String × Value)} (h : s.dropWhile isWS = [])
    {r : Value × List Char} : pMembers rx fuel s acc ≠ .ok r := by
  cases fuel with
  | zero => simp [pMembers]
  | succ fuel => simp [pMembers, h]

/-- The decoders' locality: a parse that succeeds leaving a nonempty
remainder is unaffected by appending further input (every decision was
made on a concrete character).  Stated jointly for the three mutually
recursive scanners and proved by induction on fuel. -/
theorem pExt (fuel : Nat) :
    (∀ rx s t v c rem, pVal rx fuel s = .ok (v, c :: rem) →
      pVal rx fuel (s ++ t) = .ok (v, c :: (rem ++ t))) ∧
    (∀ rx s acc t v c rem, pElems rx fuel s acc = .ok (v, c :: rem) →
      pElems rx fuel (s ++ t) acc = .ok (v, c :: (rem ++ t))) ∧
    (∀ rx s acc t v c rem, pMembers rx fuel s acc = .ok (v, c :: rem) →
      pMembers rx fuel (s ++ t) acc = .ok (v, c :: (rem ++ t))) := by
  induction fuel with
  | zero =>
    refine ⟨?_, ?_, ?_⟩
    · intro rx s t v c rem h
      simp [pVal] at h
    · intro rx s acc t v c rem h
      simp [pElems] at h
    · intro rx s acc t v c rem h
      simp [pMembers] at h
  | succ fuel ih =>
    obtain ⟨ihV, ihE, ihM⟩ := ih
    refine ⟨?_, ?_, ?_⟩
    · -- pVal
      intro rx s t v c rem h
      simp only [pVal] at h ⊢
      cases hdw : s.dropWhile isWS with
      | nil => simp [hdw] at h
      | cons c0 r =>
        simp only [hdw] at h
        simp only [dropWhile_append_cons hdw]
        by_cases h1 : c0 = '\x7b'
        · rw [if_pos h1] at h ⊢
          cases hdw2 : r.dropWhile isWS with
          | nil =>
            simp only [hdw2] at h
            exact absurd h (pMembers_ws_nil hdw2)
          | cons d r2 =>
            simp only [hdw2] at h
            simp only [dropWhile_append_cons hdw2]
            by_cases hd : d = '\x7d'
            · rw [if_pos hd] at h ⊢
              simp only [Except.ok.injEq, Prod.mk.injEq] at h
              obtain ⟨h2, h3⟩ := h
              subst h3
              simp [h2]
            · rw [if_neg hd] at h ⊢
              exact ihM rx r [] t v c rem h
        · rw [if_neg h1] at h ⊢
          by_cases h2 : c0 = '['
          · rw [if_pos h2] at h ⊢
            cases hdw2 : r.dropWhile isWS with
            | nil =>
              simp only [hdw2] at h
              exact absurd h (pElems_ws_nil hdw2)
            | cons d r2 =>
              simp only [hdw2] at h
              simp only [dropWhile_append_cons hdw2]
              by_cases hd : d = ']'
              · rw [if_pos hd] at h ⊢
                simp only [Except.ok.injEq, Prod.mk.injEq] at h
                obtain ⟨h3, h4⟩ := h
                subst h4
                simp [h3]
              · rw [if_neg hd] at h ⊢
                exact ihE rx r [] t v c rem h
          · rw [if_neg h2] at h ⊢
            by_cases h3 : c0 = '"'
            · rw [if_pos h3] at h ⊢
              cases hps : pStr '"' r [] false with
              | error e => simp [hps] at h
              | ok p =>
                obtain ⟨str, r2⟩ := p
                simp only [hps] at h
                simp only [Except.ok.injEq, Prod.mk.injEq] at h
                obtain ⟨hv, hr2⟩ := h
                subst hr2
                simp only [pStr_ext hps]
                simp [hv]
            · rw [if_neg h3] at h ⊢
              by_cases h4 : (rx && decide (c0 = squote)) = true
              · rw [if_pos h4] at h ⊢
                cases hps : pStr squote r [] false with
                | error e => simp [hps] at h
                | ok p =>
                  obtain ⟨str, r2⟩ := p
                  simp only [hps] at h
                  simp only [Except.ok.injEq, Prod.mk.injEq] at h
                  obtain ⟨hv, hr2⟩ := h
                  subst hr2
                  simp only [pStr_ext hps]
                  simp [hv]
              · rw [if_neg h4] at h ⊢
                by_cases h5 : c0 = 't'
                · rw [if_pos h5] at h ⊢
                  cases hdl : dropLit ['r', 'u', 'e'] r with
                  | none => simp [hdl] at h
                  | some r2 =>
                    simp only [hdl] at h
                    simp only [Except.ok.injEq, Prod.mk.injEq] at h
                    obtain ⟨hv, hr2⟩ := h
                    subst hr2
                    simp only [dropLit_ext hdl]
                    simp [hv]
                · rw [if_neg h5] at h ⊢
                  by_cases h6 : c0 = 'f'
                  · rw [if_pos h6] at h ⊢
                    cases hdl : dropLit ['a', 'l', 's', 'e'] r with
                    | none => simp [hdl] at h
                    | some r2 =>
                      simp only [hdl] at h
                      simp only [Except.ok.injEq, Prod.mk.injEq] at h
                      obtain ⟨hv, hr2⟩ := h
                      subst hr2
                      simp only [dropLit_ext hdl]
                      simp [hv]
                  · rw [if_neg h6] at h ⊢
                    by_cases h7 : c0 = 'n'
                    · rw [if_pos h7] at h ⊢
                      cases hdl : dropLit ['u', 'l', 'l'] r with
                      | none => simp [hdl] at h
                      | some r2 =>
                        simp only [hdl] at h
                        simp only [Except.ok.injEq, Prod.mk.injEq] at h
                        obtain ⟨hv, hr2⟩ := h
                        subst hr2
                        simp only [dropLit_ext hdl]
                        simp [hv]
                    · rw [if_neg h7] at h ⊢
                      by_cases h8 : (decide (c0 = '-') || c0.isDigit) = true
                      · rw [if_pos h8] at h ⊢
                        cases hpn : pNum (c0 :: r) with
                        | error e => simp [hpn] at h
                        | ok p =>
                          obtain ⟨lex, r2⟩ := p
                          simp only [hpn] at h
                          simp only [Except.ok.injEq, Prod.mk.injEq] at h
                          obtain ⟨hv, hr2⟩ := h
                          subst hr2
                          rw [← List.cons_append]
                          simp only [pNum_ext hpn]
                          simp [hv]
                      · rw [if_neg h8] at h
                        simp at h
    · -- pElems
      intro rx s acc t v c rem h
      simp only [pElems] at h ⊢
      cases hv : pVal rx fuel s with
      | error e => simp [hv] at h
      | ok p =>
        obtain ⟨v1, r1⟩ := p
        simp only [hv] at h
        cases hdw : r1.dropWhile isWS with
        | nil => simp [hdw] at h
        | cons d r2 =>
          simp only [hdw] at h
          obtain ⟨e1, r1x, rfl⟩ : ∃ e1 r1x, r1 = e1 :: r1x := by
            cases r1 with
            | nil => simp [List.dropWhile] at hdw
            | cons x xs => exact ⟨x, xs, rfl⟩
          simp only [ihV rx s t v1 e1 r1x hv]
          rw [← List.cons_append]
          simp only [dropWhile_append_cons hdw]
          by_cases hd : d = ','
          · rw [if_pos hd] at h ⊢
            by_cases hrx : rx = true
            · rw [if_pos hrx] at h ⊢
              cases hdw2 : r2.dropWhile isWS with
              | nil =>
                simp only [hdw2] at h
                exact absurd h (pElems_ws_nil hdw2)
              | cons e2 r3 =>
                simp only [hdw2] at h
                simp only [dropWhile_append_cons hdw2]
                by_cases he2 : e2 = ']'
                · rw [if_pos he2] at h ⊢
                  simp only [Except.ok.injEq, Prod.mk.injEq] at h
                  obtain ⟨h2, h3⟩ := h
                  subst h3
                  simp [h2]
                · rw [if_neg he2] at h ⊢
                  exact ihE rx r2 (acc ++ [v1]) t v c rem h
            · rw [if_neg hrx] at h ⊢
              exact ihE rx r2 (acc ++ [v1]) t v c rem h
          · by_cases hd2 : d = ']'
            · rw [if_neg hd, if_pos hd2] at h ⊢
              simp only [Except.ok.injEq, Prod.mk.injEq] at h
              obtain ⟨h2, h3⟩ := h
              subst h3
              simp [h2]
            · rw [if_neg hd, if_neg hd2] at h
              simp at h
    · -- pMembers
      intro rx s acc t v c rem h
      simp only [pMembers] at h ⊢
      cases hdw : s.dropWhile isWS with
      | nil => simp [hdw] at h
      | cons c0 r =>
        simp only [hdw] at h
        simp only [dropWhile_append_cons hdw]
        by_cases h1 : c0 = '"'
        · rw [if_pos h1] at h ⊢
          cases hps : pStr '"' r [] false with
          | error e => simp [hps] at h
          | ok p =>
            obtain ⟨k, r1⟩ := p
            simp only [hps] at h
            cases hdw2 : r1.dropWhile isWS with
            | nil => simp [hdw2] at h
            | cons d r2 =>
              simp only [hdw2] at h
              obtain ⟨e1, r1x, rfl⟩ : ∃ e1 r1x, r1 = e1 :: r1x := by
                cases r1 with
                | nil => simp [List.dropWhile] at hdw2
                | cons x xs => exact ⟨x, xs, rfl⟩
              simp only [pStr_ext hps]
              rw [← List.cons_append]
              simp only [dropWhile_append_cons hdw2]
              by_cases hd : d = ':'
              · rw [if_pos hd] at h ⊢
                cases hv : pVal rx fuel r2 with
                | error e => simp [hv] at h
                | ok p2 =>
                  obtain ⟨v1, r3⟩ := p2
                  simp only [hv] at h
                  cases hdw3 : r3.dropWhile isWS with
                  | nil => simp [hdw3] at h
                  | cons d2 r4 =>
                    simp only [hdw3] at h
                    obtain ⟨e2, r3x, rfl⟩ : ∃ e2 r3x, r3 = e2 :: r3x := by
                      cases r3 with
                      | nil => simp [List.dropWhile] at hdw3
                      | cons x xs => exact ⟨x, xs, rfl⟩
                    simp only [ihV rx r2 t v1 e2 r3x hv]
                    rw [← List.cons_append]
                    simp only [dropWhile_append_cons hdw3]
                    by_cases hd2 : d2 = ','
                    · rw [if_pos hd2] at h ⊢
                      by_cases hrx : rx = true
                      · rw [if_pos hrx] at h ⊢
                        cases hdw4 : r4.dropWhile isWS with
                        | nil =>
                          simp only [hdw4] at h
                          exact absurd h (pMembers_ws_nil hdw4)
                        | cons e3 r5 =>
                          simp only [hdw4] at h
                          simp only [dropWhile_append_cons hdw4]
                          by_cases he3 : e3 = '\x7d'
                          · rw [if_pos he3] at h ⊢
                            simp only [Except.ok.injEq, Prod.mk.injEq] at h
                            obtain ⟨h2, h3⟩ := h
                            subst h3
                            simp [h2]
                          · rw [if_neg he3] at h ⊢
                            exact ihM rx r4 (acc ++ [(k, v1)]) t v c rem h
                      · rw [if_neg hrx] at h ⊢
                        exact ihM rx r4 (acc ++ [(k, v1)]) t v c rem h
                    · by_cases hd3 : d2 = '\x7d'
                      · rw [if_neg hd2, if_pos hd3] at h ⊢
                        simp only [Except.ok.injEq, Prod.mk.injEq] at h
                        obtain ⟨h2, h3⟩ := h
                        subst h3
                        simp [h2]
                      · rw [if_neg hd2, if_neg hd3] at h
                        simp at h
              · rw [if_neg hd] at h
                simp at h
        · rw [if_neg h1] at h ⊢
          by_cases h2 : (rx && decide (c0 = squote)) = true
          · rw [if_pos h2] at h ⊢
            cases hps : pStr squote r [] false with
            | error e => simp [hps] at h
            | ok p =>
              obtain ⟨k, r1⟩ := p
              simp only [hps] at h
              cases hdw2 : r1.dropWhile isWS with
              | nil => simp [hdw2] at h
              | cons d r2 =>
                simp only [hdw2] at h
                obtain ⟨e1, r1x, rfl⟩ : ∃ e1 r1x, r1 = e1 :: r1x := by
                  cases r1 with
                  | nil => simp [List.dropWhile] at hdw2
                  | cons x xs => exact ⟨x, xs, rfl⟩
                simp only [pStr_ext hps]
                rw [← List.cons_append]
                simp only [dropWhile_append_cons hdw2]
                by_cases hd : d = ':'
                · rw [if_pos hd] at h ⊢
                  cases hv : pVal rx fuel r2 with
                  | error e => simp [hv] at h
                  | ok p2 =>
                    obtain ⟨v1, r3⟩ := p2
                    simp only [hv] at h
                    cases hdw3 : r3.dropWhile isWS with
                    | nil => simp [hdw3] at h
                    | cons d2 r4 =>
                      simp only [hdw3] at h
                      obtain ⟨e2, r3x, rfl⟩ : ∃ e2 r3x, r3 = e2 :: r3x := by
                        cases r3 with
                        | nil => simp [List.dropWhile] at hdw3
                        | cons x xs => exact ⟨x, xs, rfl⟩
                      simp only [ihV rx r2 t v1 e2 r3x hv]
                      rw [← List.cons_append]
                      simp only [dropWhile_append_cons hdw3]
                      by_cases hd2 : d2 = ','
                      · rw [if_pos hd2] at h ⊢
                        by_cases hrx : rx = true
                        · rw [if_pos hrx] at h ⊢
                          cases hdw4 : r4.dropWhile isWS with
                          | nil =>
                            simp only [hdw4] at h
                            exact absurd h (pMembers_ws_nil hdw4)
                          | cons e3 r5 =>
                            simp only [hdw4] at h
                            simp only [dropWhile_append_cons hdw4]
                            by_cases he3 : e3 = '\x7d'
                            · rw [if_pos he3] at h ⊢
                              simp only [Except.ok.injEq, Prod.mk.injEq] at h
                              obtain ⟨h3, h4⟩ := h
                              subst h4
                              simp [h3]
                            · rw [if_neg he3] at h ⊢
                              exact ihM rx r4 (acc ++ [(k, v1)]) t v c rem h
                        · rw [if_neg hrx] at h ⊢
                          exact ihM rx r4 (acc ++ [(k, v1)]) t v c rem h
                      · by_cases hd3 : d2 = '\x7d'
                        · rw [if_neg hd2, if_pos hd3] at h ⊢
                          simp only [Except.ok.injEq, Prod.mk.injEq] at h
                          obtain ⟨h3, h4⟩ := h
                          subst h4
                          simp [h3]
                        · rw [if_neg hd2, if_neg hd3] at h
                          simp at h
                · rw [if_neg hd] at h
                  simp at h
          · rw [if_neg h2] at h
            simp at h

/-- Success is stable under extra fuel: fuel only bounds nesting depth. -/
theorem pMono (fuel : Nat) :
    (∀ rx s r, pVal rx fuel s = .ok r → pVal rx (fuel + 1) s = .ok r) ∧
    (∀ rx s acc r, pElems rx fuel s acc = .ok r → pElems rx (fuel + 1) s acc = .ok r) ∧
    (∀ rx s acc r, pMembers rx fuel s acc = .ok r →
      pMembers rx (fuel + 1) s acc = .ok r) := by
  induction fuel with
  | zero =>
    refine ⟨?_, ?_, ?_⟩
    · intro rx s r h
      simp [pVal] at h
    · intro rx s acc r h
      simp [pElems] at h
    · intro rx s acc r h
      simp [pMembers] at h
  | succ fuel ih =>
    obtain ⟨ihV, ihE, ihM⟩ := ih
    refine ⟨?_, ?_, ?_⟩
    · intro rx s r h
      simp only [pVal] at h ⊢
      cases hdw : s.dropWhile isWS with
      | nil =>
        simp only [hdw] at h ⊢
        exact h
      | cons c0 r0 =>
        simp only [hdw] at h ⊢
        by_cases h1 : c0 = '\x7b'
        · rw [if_pos h1] at h ⊢
          cases hdw2 : r0.dropWhile isWS with
          | nil =>
            simp only [hdw2] at h ⊢
            exact ihM _ _ _ _ h
          | cons d r2 =>
            simp only [hdw2] at h ⊢
            by_cases hd : d = '\x7d'
            · rw [if_pos hd] at h ⊢
              exact h
            · rw [if_neg hd] at h ⊢
              exact ihM _ _ _ _ h
        · rw [if_neg h1] at h ⊢
          by_cases h2 : c0 = '['
          · rw [if_pos h2] at h ⊢
            cases hdw2 : r0.dropWhile isWS with
            | nil =>
              simp only [hdw2] at h ⊢
              exact ihE _ _ _ _ h
            | cons d r2 =>
              simp only [hdw2] at h ⊢
              by_cases hd : d = ']'
              · rw [if_pos hd] at h ⊢
                exact h
              · rw [if_neg hd] at h ⊢
                exact ihE _ _ _ _ h
          · rw [if_neg h2] at h ⊢
            exact h
    · intro rx s acc r h
      simp only [pElems] at h ⊢
      cases hv : pVal rx fuel s with
      | error e => simp [hv] at h
      | ok p =>
        simp only [hv] at h
        simp only [ihV _ _ _ hv]
        obtain ⟨v1, r1⟩ := p
        cases hdw : r1.dropWhile isWS with
        | nil =>
          simp only [hdw] at h ⊢
          exact h
        | cons d r2 =>
          simp only [hdw] at h ⊢
          by_cases hd : d = ','
          · rw [if_pos hd] at h ⊢
            by_cases hrx : rx = true
            · rw [if_pos hrx] at h ⊢
              cases hdw2 : r2.dropWhile isWS with
              | nil =>
                simp only [hdw2] at h ⊢
                exact ihE _ _ _ _ h
              | cons e2 r3 =>
                simp only [hdw2] at h ⊢
                by_cases he2 : e2 = ']'
                · rw [if_pos he2] at h ⊢
                  exact h
                · rw [if_neg he2] at h ⊢
                  exact ihE _ _ _ _ h
            · rw [if_neg hrx] at h ⊢
              exact ihE _ _ _ _ h
          · rw [if_neg hd] at h ⊢
            exact h
    · intro rx s acc r h
      simp only [pMembers] at h ⊢
      cases hdw : s.dropWhile isWS with
      | nil =>
        simp only [hdw] at h ⊢
        exact h
      | cons c0 r0 =>
        simp only [hdw] at h ⊢
        cases hps : (if c0 = '"' then pStr '"' r0 [] false
            else if rx && decide (c0 = squote) then pStr squote r0 [] false
            else .error ⟨"expected object key", none⟩ :
              Except ParseErr (String × List Char)) with
        | error e =>
          simp only [hps] at h ⊢
          exact h
        | ok p =>
          simp only [hps] at h ⊢
          obtain ⟨k, r1⟩ := p
          cases hdw2 : r1.dropWhile isWS with
          | nil =>
            simp only [hdw2] at h ⊢
            exact h
          | cons d r2 =>
            simp only [hdw2] at h ⊢
            by_cases hd : d = ':'
            · rw [if_pos hd] at h ⊢
              cases hv : pVal rx fuel r2 with
              | error e => simp [hv] at h
              | ok p2 =>
                simp only [hv] at h
                simp only [ihV _ _ _ hv]
                obtain ⟨v1, r3⟩ := p2
                cases hdw3 : r3.dropWhile isWS with
                | nil =>
                  simp only [hdw3] at h ⊢
                  exact h
                | cons d2 r4 =>
                  simp only [hdw3] at h ⊢
                  by_cases hd2 : d2 = ','
                  · rw [if_pos hd2] at h ⊢
                    by_cases hrx : rx = true
                    · rw [if_pos hrx] at h ⊢
                      cases hdw4 : r4.dropWhile isWS with
                      | nil =>
                        simp only [hdw4] at h ⊢
                        exact absurd h (pMembers_ws_nil hdw4)
                      | cons e3 r5 =>
                        simp only [hdw4] at h ⊢
                        by_cases he3 : e3 = '\x7d'
                        · rw [if_pos he3] at h ⊢
                          exact h
                        · rw [if_neg he3] at h ⊢
                          have h2 := ihM _ _ _ _ h
                          simp only [pMembers] at h2
                          simp only [hdw4] at h2
                          exact h2
                    · rw [if_neg hrx] at h ⊢
                      exact ihM _ _ _ _ h
                  · rw [if_neg hd2] at h ⊢
                    exact h
            · rw [if_neg hd] at h ⊢
              exact h

/-- Success at some fuel implies success at any larger fuel. -/
theorem pVal_mono_le {rx : Bool} {fuel fuel' : Nat} {s : List Char}
    {r : Value × List Char} (hle : fuel ≤ fuel') (h : pVal rx fuel s = .ok r) :
    pVal rx fuel' s = .ok r := by
  induction fuel' with
  | zero =>
    have : fuel = 0 := Nat.le_zero.mp hle
    subst this
    exact h
  | succ n ih =>
    rcases Nat.lt_or_ge fuel (n + 1) with hlt | hge
    · exact (pMono n).1 _ _ _ (ih (Nat.lt_succ_iff.mp hlt))
    · have : fuel = n + 1 := Nat.le_antisymm hle hge
      subst this
      exact h

/-! ## Resolver scenarios -/

theorem runModel_detect_json_ok {jp j5p hp : ParseFn} {inFile : String}
    {input : List Char} {v : Value} (hj : jp input = .ok v) :
    runModel jp j5p hp inFile "*" input = ⟨some v, none, [], ["json"]⟩ := by
  simp [runModel, jsonStage, hj]

theorem runModel_json_ok {jp j5p hp : ParseFn} {inFile : String}
    {input : List Char} {v : Value} (hj : jp input = .ok v) :
    runModel jp j5p hp inFile "json" input = ⟨some v, none, [], ["json"]⟩ := by
  simp [runModel, jsonStage, hj]

/-! ## The claims -/

/-- C1: when every candidate grammar fails, a detect-mode run (`"*"`)
produces no value, and its returned error carries the accumulated list of
exactly one wrapped error per grammar, in the fixed order strict JSON,
JSON5, HCL (the parsers having been invoked in that same order). -/
theorem claim1_detect_error_list (jp j5p hp : ParseFn) (inFile : String)
    (input : List Char) (e1 e2 e3 : ParseErr)
    (h1 : jp input = .error e1) (h2 : j5p input = .error e2)
    (h3 : hp input = .error e3) :
    runModel jp j5p hp inFile "*" input =
      ⟨none,
       some (.unsupported "*"
         [attemptMsg inFile "*" "unable to decode JSON" input e1,
          attemptMsg inFile "*" "unable to decode JSON5" input e2,
          plainWrapMsg "*" "unable to decode HCL" e3.msg]),
       [attemptMsg inFile "*" "unable to decode JSON" input e1,
        attemptMsg inFile "*" "unable to decode JSON5" input e2,
        plainWrapMsg "*" "unable to decode HCL" e3.msg],
       ["json", "json5", "hcl"]⟩ := by
  simp [runModel, jsonStage, json5Stage, hclStage, h1, h2, h3]

/-- Witness for C1 at concrete parsers and input. -/
theorem claim1_witness :
    runModel ParseJSON ParseJSON5 (fun _ => .error ⟨"hcl failure", none⟩)
      "in.cfg" "*" ("@@".toList) =
      ⟨none,
       some (.unsupported "*"
         [attemptMsg "in.cfg" "*" "unable to decode JSON" ("@@".toList)
            ⟨"invalid character looking for value", none⟩,
          attemptMsg "in.cfg" "*" "unable to decode JSON5" ("@@".toList)
            ⟨"invalid character looking for value", none⟩,
          plainWrapMsg "*" "unable to decode HCL" "hcl failure"]),
       [attemptMsg "in.cfg" "*" "unable to decode JSON" ("@@".toList)
          ⟨"invalid character looking for value", none⟩,
        attemptMsg "in.cfg" "*" "unable to decode JSON5" ("@@".toList)
          ⟨"invalid character looking for value", none⟩,
        plainWrapMsg "*" "unable to decode HCL" "hcl failure"],
       ["json", "json5", "hcl"]⟩ :=
  claim1_detect_error_list ParseJSON ParseJSON5 _ "in.cfg" ("@@".toList)
    ⟨"invalid character looking for value", none⟩
    ⟨"invalid character looking for value", none⟩
    ⟨"hcl failure", none⟩ rfl rfl rfl

/-- C2 (counterexample): at byte offset 0 the locator reports column 0,
not column 1 as the claim states (`col`'s zero value is never bumped when
no byte is consumed). -/
theorem claim2_counterexample : ¬ (highlightPosition ("ab".toList) 0).col = 1 := by
  decide

/-- C2 (amended): `line` is 1 plus the newlines strictly before the
offset; `column` is the count of characters since the last newline plus
one *when some newline precedes the offset*, and is just the count of
characters before the offset when the error is on line 1 (in particular,
offset 0 gives line 1, column 0). -/
theorem claim2_line_col (input : List Char) (pos : Nat) (hpos : pos ≤ input.length) :
    (highlightPosition input pos).line = 1 + countNL (input.take pos) ∧
    (highlightPosition input pos).col =
      (if countNL (input.take pos) = 0 then pos
       else ((linesOf (input.take pos)).getLastD []).length + 1) := by
  simp only [highlightPosition, hpLoop_closed]
  by_cases h0 : countNL (input.take pos) = 0
  · simp [h0, List.length_take, Nat.min_eq_left hpos]
  · simp [h0]

/-- Witness for C2 (amended) at a concrete multi-line input. -/
theorem claim2_witness :
    (highlightPosition ("a\nbc".toList) 3).line = 1 + countNL (("a\nbc".toList).take 3) ∧
    (highlightPosition ("a\nbc".toList) 3).col =
      (if countNL (("a\nbc".toList).take 3) = 0 then 3
       else ((linesOf (("a\nbc".toList).take 3)).getLastD []).length + 1) :=
  claim2_line_col ("a\nbc".toList) 3 (by decide)

/-- C3: an input the strict JSON grammar accepts makes a detect-mode run
return the same result as an explicit "json" run, with only the JSON
parser ever invoked (JSON5 and HCL are never reached). -/
theorem claim3_detect_short_circuit (jp j5p hp : ParseFn) (inFile : String)
    (input : List Char) (v : Value) (hj : jp input = .ok v) :
    runModel jp j5p hp inFile "*" input = ⟨some v, none, [], ["json"]⟩ ∧
    runModel jp j5p hp inFile "json" input = ⟨some v, none, [], ["json"]⟩ :=
  ⟨runModel_detect_json_ok hj, runModel_json_ok hj⟩

/-- Witness for C3 with the concrete strict JSON decoder. -/
theorem claim3_witness :
    runModel ParseJSON ParseJSON5 (fun _ => .error ⟨"hcl failure", none⟩)
      "f" "*" ("1".toList) = ⟨some (Value.num "1"), none, [], ["json"]⟩ ∧
    runModel ParseJSON ParseJSON5 (fun _ => .error ⟨"hcl failure", none⟩)
      "f" "json" ("1".toList) = ⟨some (Value.num "1"), none, [], ["json"]⟩ :=
  claim3_detect_short_circuit ParseJSON ParseJSON5 _ "f" ("1".toList)
    (Value.num "1") rfl

/-- C4: an input rejected by strict JSON but accepted by JSON5 makes a
detect-mode run return the JSON5 value, with the accumulated error list
holding exactly the strict grammar's wrapped failure (HCL is never
invoked). -/
theorem claim4_relaxed_fallback (jp j5p hp : ParseFn) (inFile : String)
    (input : List Char) (e1 : ParseErr) (v : Value)
    (h1 : jp input = .error e1) (h2 : j5p input = .ok v) :
    runModel jp j5p hp inFile "*" input =
      ⟨some v, none, [attemptMsg inFile "*" "unable to decode JSON" input e1],
       ["json", "json5"]⟩ := by
  simp [runModel, jsonStage, json5Stage, h1, h2]

/-- Witness for C4 at the spec's trailing-comma scenario. -/
theorem claim4_witness :
    runModel ParseJSON ParseJSON5 (fun _ => .error ⟨"hcl failure", none⟩)
      "f" "*" ("\x7b\"a\":1,\x7d".toList) =
      ⟨some (Value.obj [("a", Value.num "1")]), none,
       [attemptMsg "f" "*" "unable to decode JSON" ("\x7b\"a\":1,\x7d".toList)
          ⟨"expected object key", none⟩],
       ["json", "json5"]⟩ :=
  claim4_relaxed_fallback ParseJSON ParseJSON5 _ "f" ("\x7b\"a\":1,\x7d".toList)
    ⟨"expected object key", none⟩ (Value.obj [("a", Value.num "1")]) rfl rfl

/-- C5: an explicitly requested grammar is the only one whose parser runs;
on its failure the run returns at once with that single grammar's wrapped
error, no success value and an empty accumulated list (no fall-through). -/
theorem claim5_explicit_single (jp j5p hp : ParseFn) (inFile : String)
    (input : List Char) (fm : String)
    (h : fm = "json" ∨ fm = "json5" ∨ fm = "hcl") :
    (runModel jp j5p hp inFile fm input).invoked = [fm] ∧
    (runModel jp j5p hp inFile fm input).errList = [] ∧
    (∀ e, grammarParse jp j5p hp fm input = .error e →
      runModel jp j5p hp inFile fm input =
        ⟨none, some (.attempt (wrapMsgFor inFile fm input e)), [], [fm]⟩) := by
  rcases h with rfl | rfl | rfl
  · cases hr : jp input with
    | ok v =>
      refine ⟨by simp [runModel, jsonStage, hr], by simp [runModel, jsonStage, hr], ?_⟩
      intro e he
      simp [grammarParse, hr] at he
    | error e0 =>
      refine ⟨by simp [runModel, jsonStage, hr], by simp [runModel, jsonStage, hr], ?_⟩
      intro e he
      simp [grammarParse, hr] at he
      subst he
      simp [runModel, jsonStage, hr, wrapMsgFor]
  · cases hr : j5p input with
    | ok v =>
      refine ⟨by simp [runModel, json5Stage, hr], by simp [runModel, json5Stage, hr], ?_⟩
      intro e he
      simp [grammarParse, hr] at he
    | error e0 =>
      refine ⟨by simp [runModel, json5Stage, hr], by simp [runModel, json5Stage, hr], ?_⟩
      intro e he
      simp [grammarParse, hr] at he
      subst he
      simp [runModel, json5Stage, hr, wrapMsgFor]
  · cases hr : hp input with
    | ok v =>
      refine ⟨by simp [runModel, hclStage, hr], by simp [runModel, hclStage, hr], ?_⟩
      intro e he
      simp [grammarParse, hr] at he
    | error e0 =>
      refine ⟨by simp [runModel, hclStage, hr], by simp [runModel, hclStage, hr], ?_⟩
      intro e he
      simp [grammarParse, hr] at he
      subst he
      simp [runModel, hclStage, hr, wrapMsgFor]

/-- Witness for C5: an explicit "json5" request with a failing JSON5
parser touches neither the JSON nor the HCL parser and returns the single
wrapped error. -/
theorem claim5_witness :
    (runModel (fun _ => .ok Value.null) (fun _ => .error ⟨"bad5", none⟩)
      (fun _ => .ok Value.null) "f" "json5" ("x".toList)).invoked = ["json5"] ∧
    (runModel (fun _ => .ok Value.null) (fun _ => .error ⟨"bad5", none⟩)
      (fun _ => .ok Value.null) "f" "json5" ("x".toList)).errList = [] ∧
    (∀ e, grammarParse (fun _ => .ok Value.null) (fun _ => .error ⟨"bad5", none⟩)
        (fun _ => .ok Value.null) "json5" ("x".toList) = .error e →
      runModel (fun _ => .ok Value.null) (fun _ => .error ⟨"bad5", none⟩)
        (fun _ => .ok Value.null) "f" "json5" ("x".toList) =
        ⟨none, some (.attempt (wrapMsgFor "f" "json5" ("x".toList) e)), [], ["json5"]⟩) :=
  claim5_explicit_single _ _ _ "f" ("x".toList) "json5" (Or.inr (Or.inl rfl))

/-- C6: a requested format outside the candidate set (and not `"*"`)
fails at once in the `default` case — no parser is invoked, the error list
is empty, and the returned error is the `unsupported` variant, which is
distinct from any per-grammar `attempt` error. -/
theorem claim6_unsupported_format (jp j5p hp : ParseFn) (inFile : String)
    (input : List Char) (fm : String) (h1 : fm ≠ "*") (h2 : fm ≠ "json")
    (h3 : fm ≠ "json5") (h4 : fm ≠ "hcl") :
    runModel jp j5p hp inFile fm input = ⟨none, some (.unsupported fm []), [], []⟩ ∧
    (∀ m, (RunErr.unsupported fm [] : RunErr) ≠ RunErr.attempt m) := by
  refine ⟨by simp [runModel, h1, h2, h3, h4], ?_⟩
  intro m
  simp

/-- Witness for C6 at the format name "yaml". -/
theorem claim6_witness :
    runModel ParseJSON ParseJSON5 (fun _ => .error ⟨"hcl failure", none⟩)
      "f" "yaml" ("x".toList) = ⟨none, some (.unsupported "yaml" []), [], []⟩ ∧
    (∀ m, (RunErr.unsupported "yaml" [] : RunErr) ≠ RunErr.attempt m) :=
  claim6_unsupported_format ParseJSON ParseJSON5 _ "f" ("x".toList) "yaml"
    (by decide) (by decide) (by decide) (by decide)

/-- C7 (counterexample): in a detect-mode run the strict-JSON failure's
message quotes the *requested* format `"*"`, not the attempted grammar
"json" as the claim states (the format string printed is
`m.InputFormat`). -/
theorem claim7_counterexample :
    (runModel (fun _ => .error ⟨"synerr", some 0⟩) (fun _ => .error ⟨"synerr5", none⟩)
        (fun _ => .error ⟨"hclerr", none⟩) "in.cfg" "*" ("a".toList)).errList.headD "" =
      offsetWrapMsg "in.cfg" "*" "unable to decode JSON" ("a".toList) "synerr" 0 ∧
    offsetWrapMsg "in.cfg" "*" "unable to decode JSON" ("a".toList) "synerr" 0 ≠
      offsetWrapMsg "in.cfg" "json" "unable to decode JSON" ("a".toList) "synerr" 0 := by
  refine ⟨rfl, ?_⟩
  decide

/-- C7 (amended): an attempt whose cause carries a byte offset is reported
with the `unable to parse <file> as "<requested format>"` header and the
`Syntax error at line/column/offset` diagnostic block — naming the
*requested* format string (which coincides with the attempted grammar only
for an explicit request); an attempt with no offset (HCL always, and any
offset-less cause) is reported as the plain
`unable to parse config file as ...` wrap with no diagnostic block. -/
theorem claim7_message_forms (jp j5p hp : ParseFn) (inFile : String)
    (input : List Char) (e1 e2 e3 : ParseErr) (o : Nat)
    (h1 : jp input = .error e1) (ho1 : e1.offset = some o)
    (h2 : j5p input = .error e2) (ho2 : e2.offset = none)
    (h3 : hp input = .error e3) :
    (runModel jp j5p hp inFile "*" input).errList =
      [offsetWrapMsg inFile "*" "unable to decode JSON" input e1.msg o,
       plainWrapMsg "*" "unable to decode JSON5" e2.msg,
       plainWrapMsg "*" "unable to decode HCL" e3.msg] ∧
    (runModel jp j5p hp inFile "json" input).err =
      some (.attempt (offsetWrapMsg inFile "json" "unable to decode JSON" input e1.msg o)) := by
  constructor
  · simp [runModel, jsonStage, json5Stage, hclStage, h1, h2, h3, attemptMsg, ho1, ho2]
  · simp [runModel, jsonStage, h1, attemptMsg, ho1]

/-- Witness for C7 (amended) at concrete failing parsers. -/
theorem claim7_witness :
    (runModel (fun _ => .error ⟨"m1", some 1⟩) (fun _ => .error ⟨"m2", none⟩)
        (fun _ => .error ⟨"m3", none⟩) "g.cfg" "*" ("ab".toList)).errList =
      [offsetWrapMsg "g.cfg" "*" "unable to decode JSON" ("ab".toList) "m1" 1,
       plainWrapMsg "*" "unable to decode JSON5" "m2",
       plainWrapMsg "*" "unable to decode HCL" "m3"] ∧
    (runModel (fun _ => .error ⟨"m1", some 1⟩) (fun _ => .error ⟨"m2", none⟩)
        (fun _ => .error ⟨"m3", none⟩) "g.cfg" "json" ("ab".toList)).err =
      some (.attempt (offsetWrapMsg "g.cfg" "json" "unable to decode JSON" ("ab".toList) "m1" 1)) :=
  claim7_message_forms _ _ _ "g.cfg" ("ab".toList) ⟨"m1", some 1⟩ ⟨"m2", none⟩
    ⟨"m3", none⟩ 1 rfl rfl rfl rfl rfl

/-- C8 (counterexample): the caret line holds `col + 5` spaces, so the
caret does *not* sit `column` characters past the seven-character
`NNNNN: ` line-number prefix (that would need `col + 7` spaces): at input
"abc", offset 2 (column 2), the rendered snippet differs from the
claimed layout. -/
theorem claim8_counterexample :
    (highlightPosition ("abc".toList) 2).text =
      pad5 1 ++ ": " ++ "ab" ++ "\n" ++ spaces (2 + 5) ++ "^" ++ "\n" ∧
    pad5 1 ++ ": " ++ "ab" ++ "\n" ++ spaces (2 + 5) ++ "^" ++ "\n" ≠
      pad5 1 ++ ": " ++ "ab" ++ "\n" ++ spaces (2 + 7) ++ "^" ++ "\n" := by
  refine ⟨rfl, ?_⟩
  decide

/-- C8 (amended): the snippet consists of the previous line — present
exactly when the error line is not line 1 — and then the scanned part of
the error line (its bytes before the offset), each behind the
right-aligned `%5d: ` prefix, followed by a caret line of `col + 5`
spaces and the caret (i.e. the caret sits `col − 2` characters past the
seven-character prefix). -/
theorem claim8_snippet_layout (input : List Char) (pos : Nat)
    (hpos : pos ≤ input.length) :
    (highlightPosition input pos).text =
      (if countNL (input.take pos) = 0 then
        pad5 1 ++ ": " ++ String.mk (input.take pos) ++ "\n" ++
          spaces (pos + 5) ++ "^" ++ "\n"
      else
        pad5 (countNL (input.take pos)) ++ ": " ++
          String.mk ((linesOf (input.take pos)).getD (countNL (input.take pos) - 1) []) ++
          "\n" ++
        pad5 (countNL (input.take pos) + 1) ++ ": " ++
          String.mk ((linesOf (input.take pos)).getLastD []) ++ "\n" ++
        spaces ((((linesOf (input.take pos)).getLastD []).length + 1) + 5) ++ "^" ++ "\n") ∧
    spaces ((highlightPosition input pos).col + 5) ++ "^" ++ "\n" =
      (if countNL (input.take pos) = 0 then
        spaces (pos + 5) ++ "^" ++ "\n"
      else
        spaces ((((linesOf (input.take pos)).getLastD []).length + 1) + 5) ++ "^" ++ "\n") := by
  simp only [highlightPosition, hpLoop_closed]
  by_cases h0 : countNL (input.take pos) = 0
  · simp [h0, List.length_take, Nat.min_eq_left hpos]
  · have h1k : 1 < 1 + countNL (input.take pos) := by
      have := Nat.one_le_iff_ne_zero.mpr h0
      omega
    have hsub : 1 + countNL (input.take pos) - 1 = countNL (input.take pos) := by omega
    simp only [if_neg h0, h1k, if_pos h1k, hsub]
    have hcomm : 1 + countNL (input.take pos) = countNL (input.take pos) + 1 := by omega
    by_cases hk1 : countNL (input.take pos) = 1
    · cases hl : linesOf (input.take pos) with
      | nil => exact absurd hl (linesOf_ne_nil _)
      | cons a as =>
        simp [hl, hk1, List.getD]
    · simp [if_neg hk1, hcomm]

/-- Witness for C8 (amended) at a concrete multi-line input. -/
theorem claim8_witness :
    ((highlightPosition ("a\nbc".toList) 3).text =
      (if countNL (("a\nbc".toList).take 3) = 0 then
        pad5 1 ++ ": " ++ String.mk (("a\nbc".toList).take 3) ++ "\n" ++
          spaces (3 + 5) ++ "^" ++ "\n"
      else
        pad5 (countNL (("a\nbc".toList).take 3)) ++ ": " ++
          String.mk ((linesOf (("a\nbc".toList).take 3)).getD
            (countNL (("a\nbc".toList).take 3) - 1) []) ++ "\n" ++
        pad5 (countNL (("a\nbc".toList).take 3) + 1) ++ ": " ++
          String.mk ((linesOf (("a\nbc".toList).take 3)).getLastD []) ++ "\n" ++
        spaces ((((linesOf (("a\nbc".toList).take 3)).getLastD []).length + 1) + 5) ++
          "^" ++ "\n")) ∧
    spaces ((highlightPosition ("a\nbc".toList) 3).col + 5) ++ "^" ++ "\n" =
      (if countNL (("a\nbc".toList).take 3) = 0 then
        spaces (3 + 5) ++ "^" ++ "\n"
      else
        spaces ((((linesOf (("a\nbc".toList).take 3)).getLastD []).length + 1) + 5) ++
          "^" ++ "\n") :=
  claim8_snippet_layout ("a\nbc".toList) 3 (by decide)

/-- C9 (counterexample): with the pretty-print flag set but the
destination a file, the encoder is *not* put into indent mode: the
output is the compact serialization, which differs from the indented
one, so the serialization is not "indented iff the pretty-print flag is
set, regardless of destination". -/
theorem claim9_counterexample :
    outputStage "json" true "out.json" (Value.obj [("a", Value.num "1")]) =
      .ok (encodeJSON false (Value.obj [("a", Value.num "1")]) ++ "\n") ∧
    encodeJSON false (Value.obj [("a", Value.num "1")]) ≠
      encodeJSON true (Value.obj [("a", Value.num "1")]) := by
  refine ⟨rfl, ?_⟩
  decide

/-- C9 (amended): a successful run's output is the canonical JSON
serialization of the result, indented exactly when the pretty-print flag
is set *and* the destination is standard output (`"-"`), and compact
otherwise — and `Encode` always appends a trailing newline. -/
theorem claim9_output_indent (jp j5p hp : ParseFn) (inFile : String)
    (input : List Char) (v : Value) (prettyPrint : Bool) (outFilename : String)
    (hj : jp input = .ok v) :
    runFull jp j5p hp inFile "*" input "json" prettyPrint outFilename =
      .ok (encodeJSON (prettyPrint && outFilename == "-") v ++ "\n") := by
  simp [runFull, runModel_detect_json_ok hj, outputStage]

/-- Witness for C9 (amended): pretty-print requested but writing to a
file yields the compact form. -/
theorem claim9_witness :
    runFull ParseJSON ParseJSON5 (fun _ => .error ⟨"hcl failure", none⟩)
      "f" "*" ("1".toList) "json" true "out.json" =
      .ok (encodeJSON (true && ("out.json" == "-")) (Value.num "1") ++ "\n") :=
  claim9_output_indent _ _ _ "f" ("1".toList) (Value.num "1") true "out.json" rfl

/-- C10: the stream decoders read one value and never look at what
follows.  If `doc` is a complete document whose parse is not extended by
the next byte `c` (expressed as: decoding `doc ++ [c]` yields the value
with exactly `[c]` left), then decoding `doc ++ c :: rest` succeeds with
the same value for *arbitrary* trailing bytes `rest`, under either the
strict (`rx = false`, `ParseJSON`) or relaxed (`rx = true`, `ParseJSON5`)
grammar; hence a detect-mode run classifies such input as strict JSON
when `doc` is strict-JSON-valid. -/
theorem claim10_decode_ignores_trailing (rx : Bool) (doc rest : List Char)
    (c : Char) (v : Value) (j5p hp : ParseFn) (inFile : String)
    (h : decodeOne rx (doc ++ [c]) = .ok (v, [c])) :
    (if rx then ParseJSON5 else ParseJSON) (doc ++ c :: rest) = .ok v ∧
    (rx = false →
      runModel ParseJSON j5p hp inFile "*" (doc ++ c :: rest) =
        ⟨some v, none, [], ["json"]⟩) := by
  have hext := (pExt (decodeFuel (doc ++ [c]))).1 rx (doc ++ [c]) rest v c [] h
  have heq : (doc ++ [c]) ++ rest = doc ++ c :: rest := by simp
  rw [heq] at hext
  simp only [List.nil_append] at hext
  have hle : decodeFuel (doc ++ [c]) ≤ decodeFuel (doc ++ c :: rest) := by
    simp [decodeFuel]
  have hfull : pVal rx (decodeFuel (doc ++ c :: rest)) (doc ++ c :: rest) =
      .ok (v, c :: rest) := pVal_mono_le hle hext
  constructor
  · cases rx with
    | false => simp [ParseJSON, decodeOne, hfull]
    | true => simp [ParseJSON5, decodeOne, hfull]
  · intro hrx
    subst hrx
    exact runModel_detect_json_ok (by simp [ParseJSON, decodeOne, hfull])

/-- Witness for C10: `[1]` followed by the garbage `xyz` still decodes as
the array `[1]`, and detect mode classifies the whole input as strict
JSON. -/
theorem claim10_witness :
    (if false then ParseJSON5 else ParseJSON) ("[1]".toList ++ 'x' :: "yz".toList) =
      .ok (Value.arr [Value.num "1"]) ∧
    (false = false →
      runModel ParseJSON (fun _ => .ok Value.null) (fun _ => .ok Value.null)
        "f" "*" ("[1]".toList ++ 'x' :: "yz".toList) =
        ⟨some (Value.arr [Value.num "1"]), none, [], ["json"]⟩) :=
  claim10_decode_ignores_trailing false ("[1]".toList) ("yz".toList) 'x'
    (Value.arr [Value.num "1"]) _ _ "f" rfl

end Cfgt
